import Mathlib

/-!
Verification of the extraction-and-structuring pipeline of the
book-converter repository: page-layout reconstruction, text
normalization, outline-driven document segmentation and chapter-pattern
detection, shallowly embedded from the Python sources
(`converter.py`, `utils.py`, `formats.py`, `chapter_patterns.py`).

Text is modelled as `List Char`.  Machine floats appearing as layout
coordinates are modelled as exact integers; Python's `int(x / 20)` on
such values is integer division truncating toward zero (`Int.tdiv`).
-/

namespace BookConverter

/-! ## Python slicing

`pySlice l a b` is Python's `l[a:b]` for integer indices `a`, `b`:
a negative index counts from the end of the list, and both bounds are
clamped to `[0, len(l)]`. -/

/-- Normalize one Python slice bound against a list length. -/
def pySliceBound (len : Nat) (i : Int) : Nat :=
  if i < 0 then (len + i).toNat else min i.toNat len

/-- Python `l[a:b]` for integer bounds. -/
def pySlice (l : List α) (a b : Int) : List α :=
  (l.take (pySliceBound l.length b)).drop (pySliceBound l.length a)

example : pySlice ['A', 'B', 'C', 'D'] 0 2 = ['A', 'B'] := by decide
example : pySlice ['A', 'B', 'C', 'D'] 2 0 = [] := by decide
example : pySlice ['A', 'B', 'C', 'D'] (-1) 10 = ['D'] := by decide

/-! ## Document segmentation (`formats.py`, `EPUBConverter.convert`)

The TOC-driven branch (lines 337-359) walks the outline entries; for
entry `i` it computes `next_page = pdf_toc[i+1][2]` (or
`len(text_by_page)` for the last entry) and the chapter content
`"".join(text_by_page[page-1:next_page-1])`, skipping entries whose
title is one of the placeholder strings `' '`, `'- '`, `'\u200B '` (zero-width space then space).
The no-TOC branch (lines 361-393) chunks pages. -/

/-- One outline entry `(level, title, page)` as produced by `get_toc`. -/
structure TocEntry where
  level : Int
  title : List Char
  page : Int
deriving DecidableEq, Repr

/-- Test for the placeholder titles (a space, a dash-space, a
zero-width-space artifact)
skipped by `EPUBConverter.convert`. -/
def isPlaceholderTitle (t : List Char) : Bool :=
  t = [' '] || t = ['-', ' '] || t = ['\u200B', ' ']

/-- A chapter produced by the TOC branch: its `title`, the loop
variables `page` (start, 1-based) and `next_page` (exclusive end), and
the joined `chapter_content`. -/
structure TocSection where
  title : List Char
  startPage : Int
  endPage : Int
  content : List Char
deriving DecidableEq, Repr

/-- Pair each outline entry with its successor's `page`
(`pdf_toc[i+1][2]`), the last one with `pageCount`
(`len(text_by_page)`). -/
def withNextPage (toc : List TocEntry) (pageCount : Int) : List (TocEntry × Int) :=
  match toc with
  | [] => []
  | [e] => [(e, pageCount)]
  | e :: f :: rest => (e, f.page) :: withNextPage (f :: rest) pageCount

/-- The TOC branch of `EPUBConverter.convert`: the list of chapters
(title, page range, content) built from a non-empty outline. -/
def epubTocSections (toc : List TocEntry) (text_by_page : List (List Char)) :
    List TocSection :=
  (withNextPage toc (text_by_page.length : Int)).filterMap fun en =>
    if isPlaceholderTitle en.1.title then none
    else some
      { title := en.1.title
        startPage := en.1.page
        endPage := en.2
        content := (pySlice text_by_page (en.1.page - 1) (en.2 - 1)).flatten }

/-- A chapter produced by the no-TOC fallback branch. -/
structure FbSection where
  title : List Char
  content : List Char
deriving DecidableEq, Repr

/-- Title string "Chapter n" of a fallback chunk chapter. -/
def chapterTitle (n : Nat) : List Char := "Chapter ".toList ++ Nat.toDigits 10 n

/-- Title string "Page n" of a fallback per-page chapter. -/
def pageTitle (n : Nat) : List Char := "Page ".toList ++ Nat.toDigits 10 n

/-- The no-TOC branch of `EPUBConverter.convert`: with more than 30
pages, chunks of `max(10, page_count // 20)` pages titled
`Chapter <n>`; otherwise one chapter per page titled `Page <n>`. -/
def epubFallbackSections (text_by_page : List (List Char)) : List FbSection :=
  let page_count := text_by_page.length
  if page_count > 30 then
    let chunk_size := max 10 (page_count / 20)
    (List.range ((page_count + chunk_size - 1) / chunk_size)).map fun k =>
      let i := k * chunk_size
      let end_idx := min (i + chunk_size) page_count
      { title := chapterTitle (i / chunk_size + 1)
        content := ((text_by_page.take end_idx).drop i).flatten }
  else
    (text_by_page.enum.map fun pt =>
      { title := pageTitle (pt.1 + 1), content := pt.2 } : List FbSection)

/-- The chapter list built by `EPUBConverter.convert`: either the TOC
branch or the fallback branch. -/
inductive ChapterList where
  | fromToc : List TocSection → ChapterList
  | fromFallback : List FbSection → ChapterList
deriving DecidableEq, Repr

/-- Branch selection in `EPUBConverter.convert`:
`has_toc = pdf_toc and len(pdf_toc) > 0`. -/
def epubConvertChapters (toc : List TocEntry) (text_by_page : List (List Char)) :
    ChapterList :=
  if toc.length > 0 then .fromToc (epubTocSections toc text_by_page)
  else .fromFallback (epubFallbackSections text_by_page)

/-! ## Properties of the segmentation -/

/-- Adjacent start pages are non-descending. -/
def pagesAscendingOk : List TocEntry → Bool
  | a :: b :: r => decide (a.page ≤ b.page) && pagesAscendingOk (b :: r)
  | _ => true

/-- A valid outline in the sense of the specification: non-empty,
page-ascending, all start pages within `[1, pageCount]`. -/
def validOutline (toc : List TocEntry) (pageCount : Nat) : Prop :=
  toc ≠ [] ∧ pagesAscendingOk toc = true ∧
    ∀ e ∈ toc, 1 ≤ e.page ∧ e.page ≤ (pageCount : Int)

instance (toc : List TocEntry) (pageCount : Nat) :
    Decidable (validOutline toc pageCount) :=
  inferInstanceAs (Decidable (_ ≠ _ ∧ _ = _ ∧ ∀ e ∈ toc, _ ∧ _))

lemma epubTocSections_single (e : TocEntry) (pages : List (List Char))
    (he : isPlaceholderTitle e.title = false) :
    epubTocSections [e] pages =
      [⟨e.title, e.page, (pages.length : Int),
        (pySlice pages (e.page - 1) ((pages.length : Int) - 1)).flatten⟩] := by
  simp [epubTocSections, withNextPage, he]

lemma epubTocSections_cons_cons (e f : TocEntry) (r : List TocEntry)
    (pages : List (List Char)) (he : isPlaceholderTitle e.title = false) :
    epubTocSections (e :: f :: r) pages =
      ⟨e.title, e.page, f.page,
        (pySlice pages (e.page - 1) (f.page - 1)).flatten⟩ ::
        epubTocSections (f :: r) pages := by
  simp [epubTocSections, withNextPage, he]

/-- C1: at the specification's end-to-end example the code drops the
document's final page: the second chapter is `[3,4)` with content "C",
where the spec requires `[3,5)` with content "CD"
(`chapter_content = "".join(text_by_page[page-1:next_page-1])` with
`next_page = len(text_by_page)` for the last entry). -/
theorem c1_endToEnd_final_page_dropped :
    epubTocSections
        [⟨1, "Intro".toList, 1⟩, ⟨1, "Chapter 1".toList, 3⟩]
        [['A'], ['B'], ['C'], ['D']] =
      [⟨"Intro".toList, 1, 3, ['A', 'B']⟩,
       ⟨"Chapter 1".toList, 3, 4, ['C']⟩] := by
  decide

/-- C2 is false as stated: for the valid outline
`[(1," ",1), (1,"Ch",2)]` over two pages, no produced section covers
page 1, so the section ranges do not partition `[1, pageCount+1)`. -/
theorem c2_partition_counterexample :
    validOutline [⟨1, [' '], 1⟩, ⟨1, ['C', 'h'], 2⟩] 2 ∧
    epubTocSections [⟨1, [' '], 1⟩, ⟨1, ['C', 'h'], 2⟩] [['P'], ['Q']] =
      [⟨['C', 'h'], 2, 2, []⟩] ∧
    ¬ ∃ s ∈ epubTocSections [⟨1, [' '], 1⟩, ⟨1, ['C', 'h'], 2⟩]
        [['P'], ['Q']], s.startPage ≤ 1 ∧ (1 : Int) < s.endPage := by
  refine ⟨by decide, by decide, by decide⟩

/-- C2 (amended): for a valid outline with no placeholder titles the
section ranges are consecutive and pairwise disjoint, and they exactly
partition `[firstEntry.startPage, pageCount)`: every integer in that
interval is covered by exactly one section, and nothing outside it is
covered. -/
theorem c2_sections_partition_from_first_entry (e : TocEntry)
    (rest : List TocEntry) (pages : List (List Char))
    (hv : validOutline (e :: rest) pages.length)
    (hph : ∀ x ∈ e :: rest, isPlaceholderTitle x.title = false) (q : Int) :
    ((epubTocSections (e :: rest) pages).countP
        fun s => decide (s.startPage ≤ q ∧ q < s.endPage)) =
      if e.page ≤ q ∧ q < (pages.length : Int) then 1 else 0 := by
  induction rest generalizing e with
  | nil =>
    have he := hph e (List.mem_cons_self ..)
    rw [epubTocSections_single e pages he]
    simp only [List.countP_cons, List.countP_nil, decide_eq_true_eq]
    split_ifs <;> simp_all
  | cons f r ih =>
    obtain ⟨-, hch, hb⟩ := hv
    rw [show pagesAscendingOk (e :: f :: r) =
        (decide (e.page ≤ f.page) && pagesAscendingOk (f :: r)) from rfl,
      Bool.and_eq_true, decide_eq_true_eq] at hch
    have he := hph e (List.mem_cons_self ..)
    have hef : e.page ≤ f.page := hch.1
    have hfb : 1 ≤ f.page ∧ f.page ≤ (pages.length : Int) :=
      hb f (by simp)
    rw [epubTocSections_cons_cons e f r pages he]
    rw [List.countP_cons]
    rw [ih f ⟨by simp, hch.2, fun x hx => hb x (List.mem_cons_of_mem e hx)⟩
      (fun x hx => hph x (List.mem_cons_of_mem e hx))]
    simp only [decide_eq_true_eq]
    split_ifs <;> omega

/-- C2 witness: instantiation of the partition theorem at a concrete
valid outline, a concrete page list and a covered page index. -/
theorem c2_partition_witness :
    validOutline [⟨1, ['A'], 1⟩] 2 ∧
    (∀ x ∈ [(⟨1, ['A'], 1⟩ : TocEntry)], isPlaceholderTitle x.title = false) ∧
    ((epubTocSections [⟨1, ['A'], 1⟩] [['P'], ['Q']]).countP
        fun s => decide (s.startPage ≤ 1 ∧ 1 < s.endPage)) =
      if (1 : Int) ≤ 1 ∧ (1 : Int) < 2 then 1 else 0 :=
  ⟨by decide, by decide,
    c2_sections_partition_from_first_entry ⟨1, ['A'], 1⟩ [] [['P'], ['Q']]
      (by decide) (by decide) 1⟩

/-- C3 is false as stated: on a non-ascending outline the converter
neither rejects nor falls back to the no-outline path; it silently
segments with the invalid page numbers (producing an inverted, empty
range `[3,1)`). -/
theorem c3_no_validation_counterexample :
    epubConvertChapters [⟨1, ['A'], 3⟩, ⟨1, ['B'], 1⟩]
        [['P'], ['Q'], ['R']] =
      .fromToc [⟨['A'], 3, 1, []⟩, ⟨['B'], 1, 3, ['P', 'Q']⟩] ∧
    epubConvertChapters [⟨1, ['A'], 3⟩, ⟨1, ['B'], 1⟩]
        [['P'], ['Q'], ['R']] ≠
      .fromFallback (epubFallbackSections [['P'], ['Q'], ['R']]) := by
  refine ⟨by decide, by decide⟩

/-- C3 (amended): the converter performs no outline validation — every
non-empty outline, ascending or not, deterministically takes the
outline branch, whose sections are computed directly from the outline's
page numbers. -/
theorem c3_nonempty_outline_always_taken (toc : List TocEntry)
    (pages : List (List Char)) (h : toc ≠ []) :
    epubConvertChapters toc pages = .fromToc (epubTocSections toc pages) := by
  unfold epubConvertChapters
  rw [if_pos (List.length_pos.mpr h)]

/-- C3 witness: the outline branch is taken at a concrete non-empty
(non-ascending) outline. -/
theorem c3_outline_branch_witness :
    ([⟨1, ['A'], 3⟩, ⟨1, ['B'], 1⟩] : List TocEntry) ≠ [] ∧
    epubConvertChapters [⟨1, ['A'], 3⟩, ⟨1, ['B'], 1⟩] [['P']] =
      .fromToc (epubTocSections [⟨1, ['A'], 3⟩, ⟨1, ['B'], 1⟩] [['P']]) :=
  ⟨by decide,
    c3_nonempty_outline_always_taken [⟨1, ['A'], 3⟩, ⟨1, ['B'], 1⟩] [['P']]
      (by decide)⟩

lemma range_chunks_flatten {α : Type} (c : Nat) (hc : 0 < c) :
    ∀ n (l : List α), l.length = n →
      ((List.range ((l.length + c - 1) / c)).map
        fun k => (l.drop (k * c)).take c).flatten = l := by
  intro n
  induction n using Nat.strong_induction_on with
  | _ n ih =>
    intro l hl
    subst hl
    rcases eq_or_ne l [] with rfl | hne
    · simp [Nat.div_eq_of_lt (by omega : c - 1 < c)]
    · have hlen : 0 < l.length := List.length_pos.mpr hne
      have h1 : (l.length + c - 1) / c = (l.length - 1) / c + 1 := by
        rw [show l.length + c - 1 = (l.length - 1) + c by omega,
          Nat.add_div_right _ hc]
      have h2 : ((l.drop c).length + c - 1) / c + 1 = (l.length - 1) / c + 1 := by
        rw [List.length_drop]
        rcases le_or_lt l.length c with h | h
        · rw [Nat.sub_eq_zero_of_le h]
          rw [Nat.div_eq_of_lt (by omega : 0 + c - 1 < c),
            Nat.div_eq_of_lt (by omega : l.length - 1 < c)]
        · rw [show l.length - c + c - 1 = l.length - 1 by omega]
      rw [h1, ← h2, List.range_succ_eq_map]
      have hdrop : (l.drop c).length = l.length - c := List.length_drop ..
      have htail : ∀ k, (l.drop (Nat.succ k * c)).take c =
          ((l.drop c).drop (k * c)).take c := by
        intro k
        rw [List.drop_drop]
        congr 1
        rw [Nat.succ_mul, Nat.add_comm]
      calc ((0 :: (List.range (((l.drop c).length + c - 1) / c)).map Nat.succ).map
              fun k => (l.drop (k * c)).take c).flatten
          = (l.take c) ++ ((List.range (((l.drop c).length + c - 1) / c)).map
              fun k => ((l.drop c).drop (k * c)).take c).flatten := by
            simp only [List.map_cons, List.map_map, List.flatten_cons,
              Nat.zero_mul, List.drop_zero]
            congr 1
            congr 1
            apply List.map_congr_left
            intro k _
            simpa using htail k
        _ = l.take c ++ l.drop c := by
            rw [ih (l.length - c) (by omega) (l.drop c) hdrop]
        _ = l := List.take_append_drop c l

/-- C4: fallback segmentation.  With more than 30 pages the chunk size
is `max(10, pageCount // 20)` and the sections are the consecutive
chunks in order, titled `Chapter n`; the chunks concatenate back to the
page list, so every page lies in exactly one section.  With 45 pages
the chunk size is 10 and there are exactly 5 sections.  With at most 30
pages each page becomes its own section titled `Page n`. -/
theorem c4_fallback_chunking (pages : List (List Char)) :
    (pages.length ≤ 30 →
      epubFallbackSections pages =
        pages.enum.map fun pt => ⟨pageTitle (pt.1 + 1), pt.2⟩) ∧
    (pages.length > 30 →
      epubFallbackSections pages =
        (List.range ((pages.length + max 10 (pages.length / 20) - 1) /
            max 10 (pages.length / 20))).map fun k =>
          ⟨chapterTitle (k + 1),
            ((pages.drop (k * max 10 (pages.length / 20))).take
              (max 10 (pages.length / 20))).flatten⟩) ∧
    (((List.range ((pages.length + max 10 (pages.length / 20) - 1) /
        max 10 (pages.length / 20))).map fun k =>
          (pages.drop (k * max 10 (pages.length / 20))).take
            (max 10 (pages.length / 20))).flatten = pages) ∧
    (pages.length = 45 →
      max 10 (pages.length / 20) = 10 ∧
        (epubFallbackSections pages).length = 5) := by
  have hc : 0 < max 10 (pages.length / 20) := by omega
  refine ⟨?_, ?_, ?_, ?_⟩
  · intro h
    unfold epubFallbackSections
    rw [if_neg (by omega)]
  · intro h
    unfold epubFallbackSections
    rw [if_pos (by omega)]
    apply List.map_congr_left
    intro k _
    have hdiv : k * max 10 (pages.length / 20) / max 10 (pages.length / 20) = k :=
      Nat.mul_div_cancel k hc
    simp only [hdiv, FbSection.mk.injEq, true_and]
    congr 1
    rw [List.drop_take]
    rw [List.take_eq_take]
    simp only [List.length_drop]
    omega
  · exact range_chunks_flatten _ hc pages.length pages rfl
  · intro h45
    constructor
    · rw [h45]
      decide
    · unfold epubFallbackSections
      rw [if_pos (by omega)]
      rw [List.length_map, List.length_range, h45]
      decide

/-- C4 witness: at a concrete 45-page document the hypotheses hold and
the fallback produces exactly 5 chunk sections. -/
theorem c4_fallback_witness :
    (List.replicate 45 (['x'] : List Char)).length = 45 ∧
    max 10 ((List.replicate 45 (['x'] : List Char)).length / 20) = 10 ∧
    (epubFallbackSections (List.replicate 45 ['x'])).length = 5 := by
  refine ⟨by decide, ?_, ?_⟩
  · exact ((c4_fallback_chunking (List.replicate 45 ['x'])).2.2.2 (by decide)).1
  · exact ((c4_fallback_chunking (List.replicate 45 ['x'])).2.2.2 (by decide)).2

/-! ## Chapter pattern detection (`chapter_patterns.py`)

A compiled regular expression is modelled abstractly by its observable
matching behaviour: `finditer text` is the list of spans
`(start, end)` of the non-overlapping matches found left to right.
`re.compile` is a parameter returning `some` compiled regex, or `none`
for an unparseable pattern (in which case `_compile_pattern` raises
`ValueError`). -/

/-- Exceptions raised by the modelled Python code. -/
inductive PyError where
  | valueError
  | indexError
deriving DecidableEq, Repr

deriving instance DecidableEq for Except

/-- A compiled regular expression, as its `finditer` behaviour. -/
structure Regex where
  finditer : List Char → List (Nat × Nat)

/-- The `ChapterDetector` state after successful construction. -/
structure ChapterDetector where
  pattern : List Char
  style_class : List Char
  regex : Regex

/-- Construction (`ChapterDetector.__init__` with `_compile_pattern`):
store pattern and style class and compile the pattern immediately,
raising `ValueError` when it cannot be compiled. -/
def ChapterDetector.init (re_compile : List Char → Option Regex)
    (pattern : List Char) (style_class : List Char) :
    Except PyError ChapterDetector :=
  match re_compile pattern with
  | none => .error .valueError
  | some r => .ok ⟨pattern, style_class, r⟩

/-- The styling marker wrapped around one matched opening:
`<div class="STYLE">OPENING</div>`. -/
def styledOpening (style_class opening : List Char) : List Char :=
  "<div class=".toList ++ ['"'] ++ style_class ++ ['"', '>'] ++ opening ++
    "</div>".toList

/-- `format_chapter_openings`: empty pattern returns the text
unchanged; otherwise all matches are found and replaced in reverse
order, the styled replacement text (taken from the original text via
the stored match object) being spliced into the current text at the
match's span. -/
def format_chapter_openings (d : ChapterDetector) (text : List Char) :
    List Char :=
  if d.pattern = [] then text
  else
    (d.regex.finditer text).reverse.foldl
      (fun t sp =>
        t.take sp.1 ++
          styledOpening d.style_class ((text.drop sp.1).take (sp.2 - sp.1)) ++
          t.drop sp.2)
      text

/-- `extract_chapter_titles`: empty pattern returns the empty list;
otherwise the matched substrings in document order. -/
def extract_chapter_titles (d : ChapterDetector) (text : List Char) :
    List (List Char) :=
  if d.pattern = [] then []
  else (d.regex.finditer text).map fun sp => (text.drop sp.1).take (sp.2 - sp.1)

/-- C5: for every pattern the abstract compiler rejects, construction
raises `ValueError` at construction time (no text is ever consumed);
for every compilable pattern, construction succeeds with the pattern
stored and the compiled regex attached. -/
theorem c5_construction_compiles_eagerly
    (re_compile : List Char → Option Regex)
    (pattern style_class : List Char) :
    (re_compile pattern = none →
      ChapterDetector.init re_compile pattern style_class =
        .error .valueError) ∧
    (∀ r, re_compile pattern = some r →
      ChapterDetector.init re_compile pattern style_class =
        .ok ⟨pattern, style_class, r⟩) := by
  constructor
  · intro h
    simp [ChapterDetector.init, h]
  · intro r h
    simp [ChapterDetector.init, h]

/-- C5 witness: a concrete failing compiler and a concrete succeeding
compiler, at the pattern `(`. -/
theorem c5_construction_witness :
    ChapterDetector.init (fun _ => none) ['('] [] = .error .valueError ∧
    ChapterDetector.init (fun _ => some ⟨fun _ => []⟩) ['a'] [] =
      .ok ⟨['a'], [], ⟨fun _ => []⟩⟩ :=
  ⟨(c5_construction_compiles_eagerly (fun _ => none) ['('] []).1 rfl,
    (c5_construction_compiles_eagerly (fun _ => some ⟨fun _ => []⟩) ['a']
      []).2 ⟨fun _ => []⟩ rfl⟩

/-- C6 is false as stated for a detector whose pattern is the empty
string: such a detector is constructible (`re.compile("")` succeeds),
the empty pattern has exactly two non-overlapping matches on a
one-character text (at offsets 0 and 1), yet `format_chapter_openings`
returns the text unchanged and `extract_chapter_titles` returns `[]`
because of the `if not self.pattern` early return. -/
theorem c6_empty_pattern_counterexample :
    (ChapterDetector.mk []
        ("chapter-opening").toList
        ⟨fun t => (List.range (t.length + 1)).map fun i => (i, i)⟩).regex.finditer
        ['x'] = [(0, 0), (1, 1)] ∧
    format_chapter_openings
      (ChapterDetector.mk [] ("chapter-opening").toList
        ⟨fun t => (List.range (t.length + 1)).map fun i => (i, i)⟩)
      ['x'] = ['x'] ∧
    extract_chapter_titles
      (ChapterDetector.mk [] ("chapter-opening").toList
        ⟨fun t => (List.range (t.length + 1)).map fun i => (i, i)⟩)
      ['x'] = [] ∧
    (['x'] : List Char) ≠
      styledOpening ("chapter-opening").toList [] ++ ['x'] ++
        styledOpening ("chapter-opening").toList [] := by
  refine ⟨by decide, by decide, by decide, by decide⟩

/-- C6 (amended): for every detector with a non-empty pattern and every
text on which its regex finds exactly two matches (spans ascending,
non-overlapping and within bounds, as `finditer` guarantees),
formatting wraps exactly the two matched substrings in the styling
marker leaving everything else unchanged, and extraction returns the
two matched substrings in document order; the reverse-order replacement
keeps the first span's offsets valid. -/
theorem c6_two_matches_formatted (d : ChapterDetector) (text : List Char)
    (s1 e1 s2 e2 : Nat) (hp : d.pattern ≠ [])
    (hfi : d.regex.finditer text = [(s1, e1), (s2, e2)])
    (h1 : s1 ≤ e1) (h12 : e1 ≤ s2) (h2 : s2 ≤ e2)
    (hlen : e2 ≤ text.length) :
    format_chapter_openings d text =
      text.take s1 ++
        styledOpening d.style_class ((text.drop s1).take (e1 - s1)) ++
        (text.drop e1).take (s2 - e1) ++
        styledOpening d.style_class ((text.drop s2).take (e2 - s2)) ++
        text.drop e2 ∧
    extract_chapter_titles d text =
      [(text.drop s1).take (e1 - s1), (text.drop s2).take (e2 - s2)] := by
  have hs2 : (text.take s2).length = s2 := by
    rw [List.length_take]
    omega
  constructor
  · rw [format_chapter_openings, if_neg hp, hfi]
    simp only [List.reverse_cons, List.reverse_nil, List.nil_append,
      List.cons_append, List.foldl_cons, List.foldl_nil]
    generalize styledOpening d.style_class ((text.drop s2).take (e2 - s2)) = W2
    generalize styledOpening d.style_class ((text.drop s1).take (e1 - s1)) = W1
    rw [List.take_append_of_le_length
        (by rw [List.length_append, hs2]; omega),
      List.take_append_of_le_length (by rw [hs2]; omega),
      List.take_take, min_eq_left (by omega : s1 ≤ s2),
      List.drop_append_of_le_length
        (by rw [List.length_append, hs2]; omega),
      List.drop_append_of_le_length (by rw [hs2]; omega),
      List.drop_take]
    simp [List.append_assoc]
  · rw [extract_chapter_titles, if_neg hp, hfi]
    simp

/-- C6 witness: a concrete detector (pattern `ab`) and a concrete text
with exactly two matches, formatted and extracted as the theorem
states. -/
theorem c6_two_matches_witness :
    format_chapter_openings
      (ChapterDetector.mk ['a', 'b'] ['s']
        ⟨fun _ => [(1, 3), (4, 6)]⟩) ("xabyabz").toList =
      ['x'] ++ styledOpening ['s'] ['a', 'b'] ++ ['y'] ++
        styledOpening ['s'] ['a', 'b'] ++ ['z'] ∧
    extract_chapter_titles
      (ChapterDetector.mk ['a', 'b'] ['s']
        ⟨fun _ => [(1, 3), (4, 6)]⟩) ("xabyabz").toList =
      [['a', 'b'], ['a', 'b']] := by
  have h := c6_two_matches_formatted
    (ChapterDetector.mk ['a', 'b'] ['s'] ⟨fun _ => [(1, 3), (4, 6)]⟩)
    ("xabyabz").toList 1 3 4 6 (by decide) rfl (by decide) (by decide)
    (by decide) (by decide)
  refine ⟨?_, ?_⟩
  · rw [h.1]
    decide
  · rw [h.2]
    decide

/-! ## Page layout reconstruction (`converter.py`, `_extract_columns`)

A PyMuPDF text block is the tuple `(x0, y0, x1, y1, text, no, type)`;
`_extract_columns` uses only indices 0 (`x0`), 1 (`y0`) and 4 (`text`).
Coordinates are modelled as exact integers; a block tuple too short to
carry a text field at index 4 is modelled with `text = none`, and the
access `b[4]` on such a block raises `IndexError`.  Python's
`int(b[1] / 20)` truncates toward zero (`Int.tdiv`), and `list.sort`
is a stable sort by the key tuple `(int(b[1] / 20), b[0])`. -/

/-- A positioned text block (the fields `_extract_columns` reads). -/
structure Block where
  x0 : Int
  y0 : Int
  text : Option (List Char)
deriving DecidableEq, Repr

/-- The sort key `(int(b[1] / 20), b[0])`. -/
def blockKey (b : Block) : Int × Int := (Int.tdiv b.y0 20, b.x0)

/-- Lexicographic order on Python key tuples. -/
def keyLe (k1 k2 : Int × Int) : Bool :=
  decide (k1.1 < k2.1) || (decide (k1.1 = k2.1) && decide (k1.2 ≤ k2.2))

lemma keyLe_iff (k1 k2 : Int × Int) :
    keyLe k1 k2 = true ↔ k1.1 < k2.1 ∨ (k1.1 = k2.1 ∧ k1.2 ≤ k2.2) := by
  simp [keyLe]

/-- Stable insertion: a block goes in front of the first element whose
key is not smaller, so an earlier input block precedes later ones with
an equal key. -/
def insertBlock (b : Block) : List Block → List Block
  | [] => [b]
  | c :: cs =>
    if keyLe (blockKey b) (blockKey c) then b :: c :: cs
    else c :: insertBlock b cs

/-- Stable sort of the block list by `blockKey`, extensionally equal to
Python's stable `list.sort` with that key. -/
def sortBlocks : List Block → List Block
  | [] => []
  | b :: bs => insertBlock b (sortBlocks bs)

/-- Collect `b[4]` for the blocks in order, raising `IndexError` at the
first block whose tuple has no index 4 — exactly where the generator
consumed by `join` raises. -/
def blockTexts : List Block → Except PyError (List (List Char))
  | [] => .ok []
  | b :: bs =>
    match b.text with
    | none => .error .indexError
    | some t =>
      match blockTexts bs with
      | .error e => .error e
      | .ok ts => .ok (t :: ts)

/-- `_extract_columns`: `blocks.sort(key=lambda b: (int(b[1] / 20), b[0]))`
followed by `"\n".join(b[4] for b in blocks)`. -/
def extract_columns (blocks : List Block) : Except PyError (List Char) :=
  match blockTexts (sortBlocks blocks) with
  | .error e => .error e
  | .ok ts => .ok (List.intercalate ['\n'] ts)

lemma mem_insertBlock (b c : Block) (l : List Block) :
    c ∈ insertBlock b l ↔ c = b ∨ c ∈ l := by
  induction l with
  | nil => simp [insertBlock]
  | cons d ds ih =>
    simp only [insertBlock]
    split
    · simp only [List.mem_cons]
    · simp only [List.mem_cons, ih]
      tauto

lemma mem_sortBlocks (c : Block) (l : List Block) :
    c ∈ sortBlocks l ↔ c ∈ l := by
  induction l with
  | nil => simp [sortBlocks]
  | cons d ds ih =>
    simp [sortBlocks, mem_insertBlock, ih]

/-- C7 is false as stated with floor bands: the code truncates toward
zero, so a block at `y0 = -10` (floor band `-1`) and a block at
`y0 = 1` (floor band `0`) share the truncated band `0` and are ordered
by `x0` alone — the block in the strictly lower floor band is emitted
second, under either input ordering. -/
theorem c7_floor_band_counterexample :
    Int.fdiv (-10) 20 < Int.fdiv 1 20 ∧
    extract_columns [⟨5, -10, some ['A']⟩, ⟨0, 1, some ['B']⟩] =
      .ok ['B', '\n', 'A'] ∧
    extract_columns [⟨0, 1, some ['B']⟩, ⟨5, -10, some ['A']⟩] =
      .ok ['B', '\n', 'A'] ∧
    (['B', '\n', 'A'] : List Char) ≠ ['A', '\n', 'B'] := by
  refine ⟨by decide, by decide, by decide, by decide⟩

/-- C7 (amended): with vertical bands computed as the code computes
them — `int(y0 / 20)`, truncation toward zero — a block whose key
(band, then `x0`) is strictly smaller is emitted first, whichever order
the two blocks arrive in. -/
theorem c7_band_order_preserved (a b : Block) (ta tb : List Char)
    (hta : a.text = some ta) (htb : b.text = some tb)
    (h : Int.tdiv a.y0 20 < Int.tdiv b.y0 20 ∨
      (Int.tdiv a.y0 20 = Int.tdiv b.y0 20 ∧ a.x0 < b.x0)) :
    extract_columns [a, b] = .ok (List.intercalate ['\n'] [ta, tb]) ∧
    extract_columns [b, a] = .ok (List.intercalate ['\n'] [ta, tb]) := by
  have hab : keyLe (blockKey a) (blockKey b) = true := by
    rw [keyLe_iff]
    simp only [blockKey]
    rcases h with h | ⟨h1, h2⟩
    · exact Or.inl h
    · exact Or.inr ⟨h1, le_of_lt h2⟩
  have hba : keyLe (blockKey b) (blockKey a) = false := by
    rw [Bool.eq_false_iff, Ne, keyLe_iff]
    simp only [blockKey]
    rcases h with h | ⟨h1, h2⟩
    · rintro (h' | ⟨h1', -⟩) <;> omega
    · rintro (h' | ⟨-, h2'⟩) <;> omega
  constructor
  · simp [extract_columns, sortBlocks, insertBlock, hab, blockTexts, hta, htb]
  · simp [extract_columns, sortBlocks, insertBlock, hba, blockTexts, hta, htb]

/-- C7 witness: two concrete blocks in distinct truncated bands are
emitted band-first under both input orders. -/
theorem c7_band_order_witness :
    (⟨9, 0, some ['A']⟩ : Block).text = some ['A'] ∧
    (Int.tdiv (0 : Int) 20 < Int.tdiv 25 20 ∨
      (Int.tdiv (0 : Int) 20 = Int.tdiv 25 20 ∧ (9 : Int) < 1)) ∧
    extract_columns [⟨9, 0, some ['A']⟩, ⟨1, 25, some ['B']⟩] =
      .ok (List.intercalate ['\n'] [['A'], ['B']]) ∧
    extract_columns [⟨1, 25, some ['B']⟩, ⟨9, 0, some ['A']⟩] =
      .ok (List.intercalate ['\n'] [['A'], ['B']]) := by
  have h := c7_band_order_preserved ⟨9, 0, some ['A']⟩ ⟨1, 25, some ['B']⟩
    ['A'] ['B'] rfl rfl (by decide)
  exact ⟨rfl, by decide, h.1, h.2⟩

/-- C9 is false as stated: a block with no text field at index 4 makes
`"\n".join(b[4] for b in blocks)` raise `IndexError`; the block is not
treated as empty text and no text string is returned. -/
theorem c9_missing_text_is_fatal :
    extract_columns [⟨0, 0, none⟩] = .error .indexError ∧
    extract_columns [⟨0, 0, none⟩] ≠ .ok [] := by
  refine ⟨by decide, by decide⟩

/-- C9 (amended): page reconstruction never fails on block lists whose
blocks all carry a text field; a missing text field is the only failure
and it is fatal. -/
theorem c9_all_text_no_error (blocks : List Block)
    (h : ∀ b ∈ blocks, b.text ≠ none) :
    ∃ t, extract_columns blocks = .ok t := by
  have hs : ∀ b ∈ sortBlocks blocks, b.text ≠ none := fun b hb =>
    h b ((mem_sortBlocks b blocks).mp hb)
  have hm : ∀ l : List Block, (∀ b ∈ l, b.text ≠ none) →
      ∃ ts, blockTexts l = Except.ok ts := by
    intro l
    induction l with
    | nil => exact fun _ => ⟨[], rfl⟩
    | cons b bs ih =>
      intro hl
      obtain ⟨t, ht⟩ : ∃ t, b.text = some t := by
        cases hbt : b.text with
        | none => exact absurd hbt (hl b (List.mem_cons_self ..))
        | some t => exact ⟨t, rfl⟩
      obtain ⟨ts, hts⟩ := ih fun x hx => hl x (List.mem_cons_of_mem b hx)
      refine ⟨t :: ts, ?_⟩
      simp [blockTexts, ht, hts]
  obtain ⟨ts, hts⟩ := hm (sortBlocks blocks) hs
  exact ⟨List.intercalate ['\n'] ts, by simp [extract_columns, hts]⟩

/-- C9 witness: reconstruction succeeds on concrete well-formed
blocks. -/
theorem c9_all_text_witness :
    (∀ b ∈ [(⟨0, 0, some ['A']⟩ : Block), ⟨3, 50, some ['B']⟩],
      b.text ≠ none) ∧
    ∃ t, extract_columns [(⟨0, 0, some ['A']⟩ : Block), ⟨3, 50, some ['B']⟩] =
      .ok t :=
  ⟨by decide, c9_all_text_no_error _ (by decide)⟩

/-! ## Text normalization (`utils.py`, `normalize_text`)

Each regex substitution of `normalize_text` is embedded as a scanning
function on `List Char` implementing exactly the semantics of Python's
`re.sub` for that pattern: leftmost scanning, the documented
greedy/backtracking behaviour of the pattern, and resumption after the
end of each replaced match.  Character classes (`\s`, `\w`, `[a-z]`)
are interpreted over ASCII plus the dialogue punctuation; input
outside this range is not distinguished further by the model.
`unicodedata.normalize('NFC', ...)` is an external library call and is
taken as a parameter `nfc`; on ASCII-only text (every concrete input
in this file) NFC is the identity.  Scanning functions take a fuel
argument; the wrappers pass the input length, which bounds the number
of scanning steps, and the fuel-exhausted branch returns the remaining
input unchanged. -/

/-- Python `\s` (ASCII range). -/
def pyIsSpace (c : Char) : Bool :=
  c = ' ' || c = '\t' || c = '\n' || c = '\r' || c = '\x0B' || c = '\x0C'

/-- The class `[a-z]`. -/
def isLowerAZ (c : Char) : Bool := 'a' ≤ c && c ≤ 'z'

/-- A dialogue marker: the class `["'—–]` (quote, apostrophe, em dash,
en dash). -/
def isMarker (c : Char) : Bool :=
  c = '"' || c = '\'' || c = '—' || c = '–'

/-- Python `\w` (ASCII range). -/
def isWordChar (c : Char) : Bool :=
  ('a' ≤ c && c ≤ 'z') || ('A' ≤ c && c ≤ 'Z') ||
    ('0' ≤ c && c ≤ '9') || c = '_'

/-- The class `[a-z,;:]` of the broken-sentence join. -/
def isClass1 (c : Char) : Bool := isLowerAZ c || c = ',' || c = ';' || c = ':'

/-- The class `[,.!?]` of the attribution-break rule. -/
def isPunctCm (c : Char) : Bool := c = ',' || c = '.' || c = '!' || c = '?'

/-- The class `[.!?:]` excluded by the non-style paragraph rule. -/
def isSentEnd (c : Char) : Bool := c = '.' || c = '!' || c = '?' || c = ':'

/-- Head test helper. -/
def headIs (p : Char → Bool) : List Char → Bool
  | c :: _ => p c
  | [] => false

/-- Python `text.split('\n')`. -/
def splitLines : List Char → List (List Char)
  | [] => [[]]
  | c :: cs =>
    if c = '\n' then [] :: splitLines cs
    else
      match splitLines cs with
      | [] => [[c]]
      | l :: ls => (c :: l) :: ls

/-- State machine for `re.sub(r'\s+', ' ', line)`: each maximal
whitespace run becomes a single space.  The flag records whether the
previous character was inside a whitespace run. -/
def collapseWSGo : Bool → List Char → List Char
  | _, [] => []
  | inRun, c :: cs =>
    if pyIsSpace c then
      if inRun then collapseWSGo true cs else ' ' :: collapseWSGo true cs
    else c :: collapseWSGo false cs

/-- `re.sub(r'\s+', ' ', line)`. -/
def collapseWS (l : List Char) : List Char := collapseWSGo false l

/-- The lookaround class `["'\s—–]` of the dialogue-spacing rule. -/
def dlgClass (c : Char) : Bool := isMarker c || pyIsSpace c

/-- `re.sub(r'(?<!["\'\s—–])\s{2,}(?!["\'\s—–])', ' ', line)`: a
maximal whitespace run of length at least two collapses to one space
exactly when the character before the run (if any) and the first
character after the run (if any) are outside the lookaround class;
runs bordered by a marker are kept (every other start position fails
the lookbehind on the preceding whitespace). -/
def dlgCollapseGo : Nat → Option Char → List Char → List Char
  | _, _, [] => []
  | 0, _, l => l
  | fuel + 1, prev, c :: cs =>
    if pyIsSpace c then
      let run := c :: cs.takeWhile pyIsSpace
      let rest := cs.dropWhile pyIsSpace
      let prevOk := match prev with
        | none => true
        | some p => !(dlgClass p)
      let nextOk := match rest.head? with
        | none => true
        | some x => !(dlgClass x)
      (if 2 ≤ run.length && prevOk && nextOk then [' '] else run) ++
        dlgCollapseGo fuel run.getLast? rest
    else c :: dlgCollapseGo fuel (some c) cs

/-- Wrapper for the dialogue-spacing substitution. -/
def dlgCollapse (l : List Char) : List Char := dlgCollapseGo l.length none l

/-- The test `re.match(r'^\s*["\'—–]', content)`. -/
def isDialogueStart (content : List Char) : Bool :=
  headIs isMarker (content.dropWhile pyIsSpace)

/-- Per-line processing with `preserve_style=True`: capture the leading
indentation (`^(\s+)`), `lstrip` the content when an indent was
captured, collapse spacing dialogue-aware, and re-apply the indent. -/
def processLinePS (line : List Char) : List Char :=
  let indent := line.takeWhile pyIsSpace
  let content := if indent ≠ [] then line.dropWhile pyIsSpace else line
  let content :=
    if isDialogueStart content then dlgCollapse content
    else collapseWS content
  indent ++ content

/-- `text.replace('ﬁ', 'fi').replace('ﬂ', 'fl')` — expand the
two ligature code points. -/
def fixLigatures : List Char → List Char
  | [] => []
  | c :: cs =>
    if c = 'ﬁ' then 'f' :: 'i' :: fixLigatures cs
    else if c = 'ﬂ' then 'f' :: 'l' :: fixLigatures cs
    else c :: fixLigatures cs

/-- `re.sub(r'([a-z,;:])\s*\n\s*([a-z])(?!["\'—–])', r'\1 \2', text)`:
after a class-1 character, a whitespace run containing a newline
followed by a lowercase letter not itself followed by a marker is
replaced by a single space between the two letters; scanning resumes
after the matched lowercase letter. -/
def sub1Go : Nat → List Char → List Char
  | _, [] => []
  | 0, l => l
  | fuel + 1, c :: cs =>
    if isClass1 c then
      let run := cs.takeWhile pyIsSpace
      let rest := cs.dropWhile pyIsSpace
      match rest with
      | d :: rest2 =>
        if run.contains '\n' && isLowerAZ d && !(headIs isMarker rest2) then
          c :: ' ' :: d :: sub1Go fuel rest2
        else c :: sub1Go fuel cs
      | [] => c :: sub1Go fuel cs
    else c :: sub1Go fuel cs

/-- Wrapper for the broken-sentence join. -/
def sub1 (l : List Char) : List Char := sub1Go l.length l

/-- `re.sub(r'(["\']\s*[,.!?])\s*\n\s*([a-z])', r'\1\n\2', text)`: a
quote, optional whitespace, punctuation, then a newline-containing
whitespace run and a lowercase letter — the run is normalized to one
newline (attribution break preserved). -/
def sub2Go : Nat → List Char → List Char
  | _, [] => []
  | 0, l => l
  | fuel + 1, c :: cs =>
    if c = '"' || c = '\'' then
      let run1 := cs.takeWhile pyIsSpace
      let rest1 := cs.dropWhile pyIsSpace
      match rest1 with
      | p :: cs2 =>
        if isPunctCm p then
          let run2 := cs2.takeWhile pyIsSpace
          let rest2 := cs2.dropWhile pyIsSpace
          match rest2 with
          | d :: rest3 =>
            if run2.contains '\n' && isLowerAZ d then
              c :: (run1 ++ p :: '\n' :: d :: sub2Go fuel rest3)
            else c :: sub2Go fuel cs
          | [] => c :: sub2Go fuel cs
        else c :: sub2Go fuel cs
      | [] => c :: sub2Go fuel cs
    else c :: sub2Go fuel cs

/-- Wrapper for the attribution-break substitution. -/
def sub2 (l : List Char) : List Char := sub2Go l.length l

/-- `re.sub(r'\n(\s+[^\s])', r'\n\1', text)` replaces every match by
itself (the replacement template reproduces the matched text), so the
substitution is the identity on the text. -/
def sub3 (l : List Char) : List Char := l

/-- `re.sub(r'(\w+)-\s*\n\s*(\w+)(?!\s*["\'—–])', r'\1\2', text)`: a
word, a hyphen, a newline-containing whitespace run and a second word
are joined by deleting hyphen and run.  When the second word is
followed (after optional whitespace) by a marker the lookahead fails
on the full greedy `(\w+)` and the engine backtracks one character, so
the match takes all but the last character of the second word (and
only fails when that word has a single character); scanning resumes
after the match. -/
def hyphGo : Nat → List Char → List Char
  | _, [] => []
  | 0, l => l
  | fuel + 1, c :: cs =>
    if isWordChar c then
      let w1tail := cs.takeWhile isWordChar
      match cs.dropWhile isWordChar with
      | '-' :: cs2 =>
        let run := cs2.takeWhile pyIsSpace
        let rest := cs2.dropWhile pyIsSpace
        if run.contains '\n' && headIs isWordChar rest then
          let w2 := rest.takeWhile isWordChar
          let rest2 := rest.dropWhile isWordChar
          if headIs isMarker (rest2.dropWhile pyIsSpace) then
            if 2 ≤ w2.length then
              (c :: w1tail) ++ w2.dropLast ++
                hyphGo fuel (w2.getLast?.toList ++ rest2)
            else c :: hyphGo fuel cs
          else (c :: w1tail) ++ w2 ++ hyphGo fuel rest2
        else c :: hyphGo fuel cs
      | _ => c :: hyphGo fuel cs
    else c :: hyphGo fuel cs

/-- Wrapper for the style-preserving hyphenation join. -/
def hyph (l : List Char) : List Char := hyphGo l.length l

/-- `re.sub(r'([a-z])\s*\n\s*([a-z])', r'\1 \2', text)` — the
non-style broken-sentence join (no punctuation in class 1, no
lookahead). -/
def subAGo : Nat → List Char → List Char
  | _, [] => []
  | 0, l => l
  | fuel + 1, c :: cs =>
    if isLowerAZ c then
      let run := cs.takeWhile pyIsSpace
      let rest := cs.dropWhile pyIsSpace
      match rest with
      | d :: rest2 =>
        if run.contains '\n' && isLowerAZ d then
          c :: ' ' :: d :: subAGo fuel rest2
        else c :: subAGo fuel cs
      | [] => c :: subAGo fuel cs
    else c :: subAGo fuel cs

/-- Wrapper for the non-style broken-sentence join. -/
def subA (l : List Char) : List Char := subAGo l.length l

/-- The segment of a whitespace run after its last newline. -/
def tailAfterLastNl (run : List Char) : List Char :=
  (run.reverse.takeWhile fun x => !(x = '\n')).reverse

/-- `re.sub(r'([^.!?:])\s*\n\s*\n', r'\1\n\n', text)`: after any
character outside `[.!?:]`, a whitespace run containing at least two
newlines matches up to its last newline (greedy) and is replaced by
exactly two newlines; scanning resumes after the last newline. -/
def subBGo : Nat → List Char → List Char
  | _, [] => []
  | 0, l => l
  | fuel + 1, c :: cs =>
    if !(isSentEnd c) then
      let run := cs.takeWhile pyIsSpace
      let rest := cs.dropWhile pyIsSpace
      if 2 ≤ run.count '\n' then
        c :: '\n' :: '\n' :: subBGo fuel (tailAfterLastNl run ++ rest)
      else c :: subBGo fuel cs
    else c :: subBGo fuel cs

/-- Wrapper for the non-style paragraph-break rule. -/
def subB (l : List Char) : List Char := subBGo l.length l

/-- `re.sub(r'(\w+)-\s*\n\s*(\w+)', r'\1\2', text)` — the non-style
hyphenation join (no lookahead, the second word taken whole). -/
def hyphNoGo : Nat → List Char → List Char
  | _, [] => []
  | 0, l => l
  | fuel + 1, c :: cs =>
    if isWordChar c then
      let w1tail := cs.takeWhile isWordChar
      match cs.dropWhile isWordChar with
      | '-' :: cs2 =>
        let run := cs2.takeWhile pyIsSpace
        let rest := cs2.dropWhile pyIsSpace
        if run.contains '\n' && headIs isWordChar rest then
          (c :: w1tail) ++ rest.takeWhile isWordChar ++
            hyphGo fuel (rest.dropWhile isWordChar)
        else c :: hyphNoGo fuel cs
      | _ => c :: hyphNoGo fuel cs
    else c :: hyphNoGo fuel cs

/-- Wrapper for the non-style hyphenation join. -/
def hyphNo (l : List Char) : List Char := hyphNoGo l.length l

/-- Test for the newline character. -/
def isNl (c : Char) : Bool := c = '\n'

/-- `re.sub(r'\n{3,}', '\n\n', text)`: every maximal run of three or
more newlines becomes exactly two. -/
def collapseNLGo : Nat → List Char → List Char
  | _, [] => []
  | 0, l => l
  | fuel + 1, c :: cs =>
    if c = '\n' then
      let run := c :: cs.takeWhile isNl
      let rest := cs.dropWhile isNl
      (if 3 ≤ run.length then ['\n', '\n'] else run) ++ collapseNLGo fuel rest
    else c :: collapseNLGo fuel cs

/-- Wrapper for the blank-line collapse. -/
def collapseNL (l : List Char) : List Char := collapseNLGo l.length l

/-- Python `str.strip()` (ASCII whitespace). -/
def stripChars (l : List Char) : List Char :=
  ((l.dropWhile pyIsSpace).reverse.dropWhile pyIsSpace).reverse

/-- `normalize_text(text, preserve_style)` from `utils.py`.  The NFC
step is the parameter `nfc`; everything after it is the translated
pipeline: split into lines, per-line whitespace treatment (indentation
captured and re-applied, dialogue-aware collapsing when styled), line
re-joining, ligature expansion, the line-join/attribution/hyphenation
substitutions of the selected mode, blank-line collapsing, and a final
strip. -/
def normalize_text (nfc : List Char → List Char) (preserve_style : Bool)
    (text : List Char) : List Char :=
  if text = [] then []
  else
    let t := nfc text
    let lines := splitLines t
    let processed := lines.map fun line =>
      if preserve_style then processLinePS line else collapseWS line
    let t := List.intercalate ['\n'] processed
    let t := fixLigatures t
    let t := if preserve_style then sub3 (sub2 (sub1 t)) else subB (subA t)
    let t := if preserve_style then hyph t else hyphNo t
    let t := collapseNL t
    stripChars t

/-- NFC normalization restricted to ASCII text, where it is the
identity; all concrete inputs evaluated in this file are ASCII. -/
def nfcAscii : List Char → List Char := id

example :
    normalize_text nfcAscii true ("a\nb\nc").toList = ("a b\nc").toList := by
  decide

example :
    normalize_text nfcAscii true ("a b\nc").toList = ("a b c").toList := by
  decide

example :
    normalize_text nfcAscii true ("  Hello   world ").toList =
      ("Hello world").toList := by
  decide

example :
    normalize_text nfcAscii false ("one\n\n\n\ntwo").toList =
      ("one two").toList := by
  decide

example :
    normalize_text nfcAscii false ("one.\n\n\n\nTwo").toList =
      ("one.\n\nTwo").toList := by
  decide

/-! ## Properties of the normalization -/

/-- No two adjacent whitespace characters. -/
def nws (c d : Char) : Prop := ¬(pyIsSpace c = true ∧ pyIsSpace d = true)

/-- The text contains no run of three consecutive newline characters
(hence no run of three or more). -/
def noTripleNl (l : List Char) : Prop :=
  ∀ a b : List Char, l ≠ a ++ '\n' :: '\n' :: '\n' :: b

lemma noTripleNl_nil : noTripleNl [] := by
  intro a b h
  exact absurd h (by simp)

lemma noTripleNl_cons (c : Char) (l : List Char) (hl : noTripleNl l)
    (h : ¬(c = '\n' ∧ l.head? = some '\n' ∧ l.tail.head? = some '\n')) :
    noTripleNl (c :: l) := by
  intro a b hab
  cases a with
  | nil =>
    simp only [List.nil_append, List.cons.injEq] at hab
    exact h ⟨hab.1, by rw [hab.2]; rfl, by rw [hab.2]; rfl⟩
  | cons x a' =>
    simp only [List.cons_append, List.cons.injEq] at hab
    exact hl a' b hab.2

lemma noTripleNl_drop (l : List Char) (k : Nat) (h : noTripleNl l) :
    noTripleNl (l.drop k) := by
  intro a b hab
  apply h (l.take k ++ a) b
  rw [List.append_assoc, ← hab, List.take_append_drop]

lemma noTripleNl_reverse (l : List Char) (h : noTripleNl l) :
    noTripleNl l.reverse := by
  intro a b hab
  apply h b.reverse a.reverse
  have h2 : l = (a ++ '\n' :: '\n' :: '\n' :: b).reverse := by
    rw [← hab, List.reverse_reverse]
  rw [h2]
  simp [List.reverse_append, List.append_assoc]

lemma dropWhile_drop_form (p : Char → Bool) :
    ∀ l : List Char, ∃ k, l.dropWhile p = l.drop k := by
  intro l
  induction l with
  | nil => exact ⟨0, rfl⟩
  | cons c cs ih =>
    by_cases hc : p c
    · obtain ⟨k, hk⟩ := ih
      exact ⟨k + 1, by rw [List.dropWhile_cons, if_pos hc, hk]; rfl⟩
    · exact ⟨0, by rw [List.dropWhile_cons, if_neg hc]; rfl⟩

lemma noTripleNl_dropWhile (p : Char → Bool) (l : List Char)
    (h : noTripleNl l) : noTripleNl (l.dropWhile p) := by
  obtain ⟨k, hk⟩ := dropWhile_drop_form p l
  rw [hk]
  exact noTripleNl_drop l k h

lemma noTripleNl_stripChars (l : List Char) (h : noTripleNl l) :
    noTripleNl (stripChars l) := by
  unfold stripChars
  exact noTripleNl_reverse _ (noTripleNl_dropWhile _ _
    (noTripleNl_reverse _ (noTripleNl_dropWhile _ _ h)))

lemma takeWhile_dropWhile_nil (p : Char → Bool) :
    ∀ l : List Char, (l.dropWhile p).takeWhile p = [] := by
  intro l
  induction l with
  | nil => rfl
  | cons c cs ih =>
    rw [List.dropWhile_cons]
    by_cases hc : p c
    · rw [if_pos hc]; exact ih
    · rw [if_neg hc, List.takeWhile_cons, if_neg hc]

lemma takeWhile_nil_of_head (p : Char → Bool) (l : List Char)
    (h : ∀ x, l.head? = some x → p x = false) : l.takeWhile p = [] := by
  cases l with
  | nil => rfl
  | cons c cs => rw [List.takeWhile_cons, if_neg (by simp [h c rfl])]

lemma dropWhile_eq_self_of_takeWhile_nil (p : Char → Bool) (l : List Char)
    (h : l.takeWhile p = []) : l.dropWhile p = l := by
  cases l with
  | nil => rfl
  | cons c cs =>
    rw [List.takeWhile_cons] at h
    rw [List.dropWhile_cons]
    split at h
    · exact absurd h (by simp)
    · rw [if_neg (by assumption)]

lemma dropWhile_getLast_concat (p : Char → Bool) (y : List Char) (c : Char)
    (hns : (y ++ [c]).dropWhile p ≠ []) :
    ((y ++ [c]).dropWhile p).getLast? = some c := by
  obtain ⟨k, hk⟩ := dropWhile_drop_form p (y ++ [c])
  rw [hk] at hns ⊢
  rcases le_or_lt k y.length with h | h
  · rw [List.drop_append_of_le_length h, List.getLast?_concat]
  · exact absurd (List.drop_eq_nil_of_le (by simp; omega)) hns

lemma rstrip_keeps_head (m : List Char) (h : m.takeWhile pyIsSpace = []) :
    ((m.reverse.dropWhile pyIsSpace).reverse).takeWhile pyIsSpace = [] := by
  cases m with
  | nil => rfl
  | cons c tl =>
    have hc : pyIsSpace c = false := by
      rw [List.takeWhile_cons] at h
      split at h
      · exact absurd h (by simp)
      · simpa using ‹¬pyIsSpace c = true›
    rw [List.reverse_cons]
    cases hd : (tl.reverse ++ [c]).dropWhile pyIsSpace with
    | nil => simp [hd]
    | cons z zs =>
      have hlast := dropWhile_getLast_concat pyIsSpace tl.reverse c
        (by rw [hd]; simp)
      rw [hd] at hlast
      apply takeWhile_nil_of_head
      intro x hx
      rw [List.head?_reverse, hlast] at hx
      obtain rfl : c = x := by injection hx
      exact hc

lemma stripChars_no_lead (l : List Char) :
    (stripChars l).takeWhile pyIsSpace = [] := by
  unfold stripChars
  exact rstrip_keeps_head _ (takeWhile_dropWhile_nil _ _)

lemma stripChars_no_trail (l : List Char) :
    (stripChars l).reverse.takeWhile pyIsSpace = [] := by
  unfold stripChars
  rw [List.reverse_reverse]
  exact takeWhile_dropWhile_nil _ _

lemma stripChars_eq_self (l : List Char)
    (h1 : l.takeWhile pyIsSpace = [])
    (h2 : l.reverse.takeWhile pyIsSpace = []) : stripChars l = l := by
  unfold stripChars
  rw [dropWhile_eq_self_of_takeWhile_nil _ _ h1,
    dropWhile_eq_self_of_takeWhile_nil _ _ h2, List.reverse_reverse]

lemma collapseWSGo_allWsSpace (l : List Char) :
    ∀ b c, c ∈ collapseWSGo b l → pyIsSpace c = true → c = ' ' := by
  induction l with
  | nil => intro b c hc; simp [collapseWSGo] at hc
  | cons x xs ih =>
    intro b c hc hws
    by_cases hx : pyIsSpace x
    · cases b with
      | true =>
        rw [show collapseWSGo true (x :: xs) = collapseWSGo true xs from by
          simp [collapseWSGo, hx]] at hc
        exact ih true c hc hws
      | false =>
        rw [show collapseWSGo false (x :: xs) = ' ' :: collapseWSGo true xs
          from by simp [collapseWSGo, hx]] at hc
        rcases List.mem_cons.mp hc with rfl | hc
        · rfl
        · exact ih true c hc hws
    · rw [show collapseWSGo b (x :: xs) = x :: collapseWSGo false xs from by
        simp [collapseWSGo, hx]] at hc
      rcases List.mem_cons.mp hc with rfl | hc
      · exact absurd hws (by simp [hx])
      · exact ih false c hc hws

lemma collapseWSGo_mem (l : List Char) :
    ∀ b c, c ∈ collapseWSGo b l → c ∈ l ∨ c = ' ' := by
  induction l with
  | nil => intro b c hc; simp [collapseWSGo] at hc
  | cons x xs ih =>
    intro b c hc
    by_cases hx : pyIsSpace x
    · cases b with
      | true =>
        rw [show collapseWSGo true (x :: xs) = collapseWSGo true xs from by
          simp [collapseWSGo, hx]] at hc
        rcases ih true c hc with h | h
        · exact Or.inl (List.mem_cons_of_mem x h)
        · exact Or.inr h
      | false =>
        rw [show collapseWSGo false (x :: xs) = ' ' :: collapseWSGo true xs
          from by simp [collapseWSGo, hx]] at hc
        rcases List.mem_cons.mp hc with rfl | hc
        · exact Or.inr rfl
        · rcases ih true c hc with h | h
          · exact Or.inl (List.mem_cons_of_mem x h)
          · exact Or.inr h
    · rw [show collapseWSGo b (x :: xs) = x :: collapseWSGo false xs from by
        simp [collapseWSGo, hx]] at hc
      rcases List.mem_cons.mp hc with rfl | hc
      · exact Or.inl (List.mem_cons_self ..)
      · rcases ih false c hc with h | h
        · exact Or.inl (List.mem_cons_of_mem x h)
        · exact Or.inr h

lemma collapseWSGo_chain (l : List Char) :
    List.Chain' nws (collapseWSGo true l) ∧
    List.Chain' nws (collapseWSGo false l) ∧
    (∀ x, (collapseWSGo true l).head? = some x → pyIsSpace x = false) := by
  induction l with
  | nil => refine ⟨by simp [collapseWSGo], by simp [collapseWSGo], ?_⟩
           intro x hx
           simp [collapseWSGo] at hx
  | cons c cs ih =>
    by_cases hc : pyIsSpace c
    · have e1 : collapseWSGo true (c :: cs) = collapseWSGo true cs := by
        simp [collapseWSGo, hc]
      have e2 : collapseWSGo false (c :: cs) = ' ' :: collapseWSGo true cs := by
        simp [collapseWSGo, hc]
      refine ⟨by rw [e1]; exact ih.1, ?_, ?_⟩
      · rw [e2, List.chain'_cons']
        refine ⟨?_, ih.1⟩
        intro h hh
        have := ih.2.2 h hh
        intro hand
        rw [this] at hand
        exact absurd hand.2 (by simp)
      · intro x hx
        rw [e1] at hx
        exact ih.2.2 x hx
    · have e : ∀ b, collapseWSGo b (c :: cs) = c :: collapseWSGo false cs := by
        intro b
        cases b <;> simp [collapseWSGo, hc]
      have hchain : List.Chain' nws (c :: collapseWSGo false cs) := by
        rw [List.chain'_cons']
        refine ⟨?_, ih.2.1⟩
        intro h _
        intro hand
        exact absurd hand.1 (by simp [hc])
      refine ⟨by rw [e true]; exact hchain, by rw [e false]; exact hchain, ?_⟩
      intro x hx
      rw [e true] at hx
      simp only [List.head?_cons, Option.some.injEq] at hx
      subst hx
      simpa using hc

lemma collapseWSGo_fix (l : List Char) (hch : List.Chain' nws l)
    (hall : ∀ c ∈ l, pyIsSpace c = true → c = ' ') :
    collapseWSGo false l = l ∧
    ((∀ x, l.head? = some x → pyIsSpace x = false) →
      collapseWSGo true l = l) := by
  induction l with
  | nil => exact ⟨rfl, fun _ => rfl⟩
  | cons c cs ih =>
    have hch' : List.Chain' nws cs := hch.tail
    have hall' : ∀ x ∈ cs, pyIsSpace x = true → x = ' ' :=
      fun x hx => hall x (List.mem_cons_of_mem c hx)
    by_cases hc : pyIsSpace c
    · have hcs_head : ∀ x, cs.head? = some x → pyIsSpace x = false := by
        intro x hx
        cases cs with
        | nil => simp at hx
        | cons d ds =>
          simp only [List.head?_cons, Option.some.injEq] at hx
          subst hx
          have h2 := (List.chain'_cons'.mp hch).1 d (by simp)
          by_contra hxs
          exact h2 ⟨hc, by simpa using hxs⟩
      have hgo : collapseWSGo true cs = cs := (ih hch' hall').2 hcs_head
      have hcsp : c = ' ' := hall c (List.mem_cons_self ..) hc
      constructor
      · rw [show collapseWSGo false (c :: cs) = ' ' :: collapseWSGo true cs
          from by simp [collapseWSGo, hc], hgo, hcsp]
      · intro hhead
        exact absurd hc (by simp [hhead c rfl])
    · have hgo : collapseWSGo false cs = cs := (ih hch' hall').1
      constructor
      · rw [show collapseWSGo false (c :: cs) = c :: collapseWSGo false cs
          from by simp [collapseWSGo, hc], hgo]
      · intro _
        rw [show collapseWSGo true (c :: cs) = c :: collapseWSGo false cs
          from by simp [collapseWSGo, hc], hgo]

lemma chain'_drop {R : Char → Char → Prop} (l : List Char)
    (h : List.Chain' R l) : ∀ k, List.Chain' R (l.drop k) := by
  intro k
  induction k generalizing l with
  | zero => exact h
  | succ k ih =>
    cases l with
    | nil => simp
    | cons c cs => exact ih cs h.tail

lemma nws_flip (a b : Char) : flip nws a b ↔ nws a b := by
  unfold flip nws
  tauto

lemma chain'_nws_reverse (l : List Char) (h : List.Chain' nws l) :
    List.Chain' nws l.reverse := by
  rw [List.chain'_reverse]
  exact h.imp fun a b hab => fun hand => hab ⟨hand.2, hand.1⟩

lemma not_contains_of_not_mem (l : List Char) (c : Char) (h : c ∉ l) :
    l.contains c = false := by
  rw [Bool.eq_false_iff]
  intro hc
  exact h (List.elem_iff.mp hc)

lemma takeWhile_not_contains (p : Char → Bool) (cs : List Char)
    (h : '\n' ∉ cs) : (cs.takeWhile p).contains '\n' = false :=
  not_contains_of_not_mem _ _ fun hm =>
    h ((List.takeWhile_sublist p).mem hm)

lemma sub1Go_no_nl : ∀ (f : Nat) (l : List Char), '\n' ∉ l →
    sub1Go f l = l := by
  intro f
  induction f with
  | zero => intro l _; cases l <;> rfl
  | succ f ih =>
    intro l hnl
    cases l with
    | nil => rfl
    | cons c cs =>
      have hncs : '\n' ∉ cs := fun h => hnl (List.mem_cons_of_mem c h)
      have hmem : '\n' ∉ cs.takeWhile pyIsSpace := fun hm =>
        hncs ((List.takeWhile_sublist pyIsSpace).mem hm)
      simp only [sub1Go]
      by_cases hcl : isClass1 c
      · rw [if_pos hcl]
        cases hrest : cs.dropWhile pyIsSpace with
        | nil => rw [ih cs hncs]
        | cons d rest2 => simp [hmem, ih cs hncs]
      · rw [if_neg hcl, ih cs hncs]

lemma sub2Go_no_nl : ∀ (f : Nat) (l : List Char), '\n' ∉ l →
    sub2Go f l = l := by
  intro f
  induction f with
  | zero => intro l _; cases l <;> rfl
  | succ f ih =>
    intro l hnl
    cases l with
    | nil => rfl
    | cons c cs =>
      have hncs : '\n' ∉ cs := fun h => hnl (List.mem_cons_of_mem c h)
      simp only [sub2Go]
      by_cases hq : c = '"' || c = '\''
      · rw [if_pos hq]
        cases hrest : cs.dropWhile pyIsSpace with
        | nil => rw [ih cs hncs]
        | cons p cs2 =>
          have hncs2 : '\n' ∉ cs2 := by
            intro hm
            apply hncs
            exact (List.dropWhile_sublist pyIsSpace).mem
              (by rw [hrest]; exact List.mem_cons_of_mem p hm)
          have hmem2 : '\n' ∉ cs2.takeWhile pyIsSpace := fun hm =>
            hncs2 ((List.takeWhile_sublist pyIsSpace).mem hm)
          by_cases hp : isPunctCm p
          · cases hrest2 : cs2.dropWhile pyIsSpace with
            | nil => simp [hp, hrest2, ih cs hncs]
            | cons d rest3 => simp [hp, hrest2, hmem2, ih cs hncs]
          · simp [hp, ih cs hncs]
      · rw [if_neg hq, ih cs hncs]

lemma hyphGo_no_nl : ∀ (f : Nat) (l : List Char), '\n' ∉ l →
    hyphGo f l = l := by
  intro f
  induction f with
  | zero => intro l _; cases l <;> rfl
  | succ f ih =>
    intro l hnl
    cases l with
    | nil => rfl
    | cons c cs =>
      have hncs : '\n' ∉ cs := fun h => hnl (List.mem_cons_of_mem c h)
      simp only [hyphGo]
      by_cases hw : isWordChar c
      · rw [if_pos hw]
        split
        · rename_i cs2 heq
          have hncs2 : '\n' ∉ cs2 := by
            intro hm
            apply hncs
            exact (List.dropWhile_sublist isWordChar).mem
              (by rw [heq]; exact List.mem_cons_of_mem _ hm)
          have hmem : '\n' ∉ cs2.takeWhile pyIsSpace := fun hm =>
            hncs2 ((List.takeWhile_sublist pyIsSpace).mem hm)
          simp [hmem, ih cs hncs]
        · rw [ih cs hncs]
      · rw [if_neg hw, ih cs hncs]

lemma collapseNLGo_no_nl : ∀ (f : Nat) (l : List Char), '\n' ∉ l →
    collapseNLGo f l = l := by
  intro f
  induction f with
  | zero => intro l _; cases l <;> rfl
  | succ f ih =>
    intro l hnl
    cases l with
    | nil => rfl
    | cons c cs =>
      have hncs : '\n' ∉ cs := fun h => hnl (List.mem_cons_of_mem c h)
      have hc : ¬ c = '\n' := fun h => hnl (h ▸ List.mem_cons_self ..)
      simp only [collapseNLGo]
      rw [if_neg hc, ih cs hncs]

lemma dropWhile_head_false (p : Char → Bool) :
    ∀ (l : List Char) (x : Char), (l.dropWhile p).head? = some x →
      p x = false := by
  intro l
  induction l with
  | nil => intro x hx; simp at hx
  | cons c cs ih =>
    intro x hx
    rw [List.dropWhile_cons] at hx
    split at hx
    · exact ih x hx
    · simp only [List.head?_cons, Option.some.injEq] at hx
      subst hx
      exact Bool.eq_false_iff.mpr (by assumption)

lemma collapseNLGo_head_nl : ∀ (f : Nat) (l : List Char),
    (collapseNLGo f l).head? = some '\n' → l.head? = some '\n' := by
  intro f l
  cases f with
  | zero =>
    cases l with
    | nil => simp [collapseNLGo]
    | cons c cs => exact fun h => h
  | succ f =>
    cases l with
    | nil => simp [collapseNLGo]
    | cons c cs =>
      by_cases hc : c = '\n'
      · intro _
        rw [hc]
        rfl
      · rw [show collapseNLGo (f + 1) (c :: cs) = c :: collapseNLGo f cs
          from by simp [collapseNLGo, hc]]
        intro h
        simp only [List.head?_cons, Option.some.injEq] at h
        exact absurd h hc

lemma collapseNLGo_noTriple : ∀ (f : Nat) (l : List Char), l.length ≤ f →
    noTripleNl (collapseNLGo f l) := by
  intro f
  induction f with
  | zero =>
    intro l hl
    have h0 : l = [] := List.eq_nil_of_length_eq_zero (Nat.le_zero.mp hl)
    subst h0
    simpa [collapseNLGo] using noTripleNl_nil
  | succ f ih =>
    intro l hl
    cases l with
    | nil => simpa [collapseNLGo] using noTripleNl_nil
    | cons c cs =>
      by_cases hc : c = '\n'
      · subst hc
        simp only [collapseNLGo]
        rw [if_pos trivial]
        have hrest_le : (cs.dropWhile isNl).length ≤ f :=
          le_trans (List.dropWhile_sublist isNl).length_le (by simpa using hl)
        have hout := ih (cs.dropWhile isNl) hrest_le
        have hout_head :
            ¬ (collapseNLGo f (cs.dropWhile isNl)).head? = some '\n' := by
          intro hh
          have h2 := dropWhile_head_false isNl cs '\n'
            (collapseNLGo_head_nl f (cs.dropWhile isNl) hh)
          simp [isNl] at h2
        have htwo : noTripleNl
            ('\n' :: '\n' :: collapseNLGo f (cs.dropWhile isNl)) := by
          apply noTripleNl_cons
          · apply noTripleNl_cons _ _ hout
            rintro ⟨-, h5, -⟩
            exact hout_head h5
          · rintro ⟨-, -, h6⟩
            exact hout_head h6
        by_cases h3 : 3 ≤ (('\n' :: cs.takeWhile isNl) : List Char).length
        · rw [if_pos h3]
          exact htwo
        · rw [if_neg h3]
          cases ht : cs.takeWhile isNl with
          | nil =>
            show noTripleNl ('\n' :: collapseNLGo f (cs.dropWhile isNl))
            apply noTripleNl_cons _ _ hout
            rintro ⟨-, h5, -⟩
            exact hout_head h5
          | cons y ys =>
            have hy : y = '\n' := by
              have hm := List.mem_takeWhile_imp (l := cs) (p := isNl)
                (by rw [ht]; exact List.mem_cons_self ..)
              simpa [isNl] using hm
            have hys : ys = [] := by
              rw [ht] at h3
              cases ys with
              | nil => rfl
              | cons z zs => exact absurd (by simp) h3
            subst hy
            subst hys
            exact htwo
      · rw [show collapseNLGo (f + 1) (c :: cs) = c :: collapseNLGo f cs
          from by simp [collapseNLGo, hc]]
        apply noTripleNl_cons _ _ (ih cs (by simpa using hl))
        rintro ⟨h1, -, -⟩
        exact hc h1

lemma normalize_text_shape (nfc : List Char → List Char)
    (preserve_style : Bool) (text : List Char) (h : text ≠ []) :
    ∃ m, normalize_text nfc preserve_style text = stripChars (collapseNL m) := by
  unfold normalize_text
  rw [if_neg h]
  exact ⟨_, rfl⟩

/-- C10: for every NFC behaviour, every `preserve_style` mode and every
input, the output of `normalize_text` has no leading or trailing
whitespace and contains no run of three or more consecutive newline
characters (the final steps are the `\n{3,}` collapse and `strip()`),
and the empty input yields the empty output. -/
theorem c10_normalize_output_invariants (nfc : List Char → List Char)
    (preserve_style : Bool) (text : List Char) :
    (normalize_text nfc preserve_style text).takeWhile pyIsSpace = [] ∧
    (normalize_text nfc preserve_style text).reverse.takeWhile pyIsSpace
      = [] ∧
    (∀ a b : List Char, normalize_text nfc preserve_style text ≠
      a ++ '\n' :: '\n' :: '\n' :: b) ∧
    normalize_text nfc preserve_style [] = [] := by
  by_cases h : text = []
  · subst h
    refine ⟨rfl, rfl, ?_, rfl⟩
    intro a b hab
    exact absurd hab.symm (by simp [normalize_text])
  · obtain ⟨m, hm⟩ := normalize_text_shape nfc preserve_style text h
    rw [hm]
    refine ⟨stripChars_no_lead _, stripChars_no_trail _, ?_, rfl⟩
    exact noTripleNl_stripChars _
      (collapseNLGo_noTriple m.length m le_rfl)

lemma splitLines_no_nl : ∀ l : List Char, '\n' ∉ l → splitLines l = [l] := by
  intro l
  induction l with
  | nil => intro _; rfl
  | cons c cs ih =>
    intro h
    have hc : ¬ c = '\n' := fun hh => h (hh ▸ List.mem_cons_self ..)
    simp only [splitLines]
    rw [if_neg hc, ih fun hm => h (List.mem_cons_of_mem c hm)]

lemma intercalate_singleton (s a : List Char) :
    List.intercalate s [a] = a := by
  simp [List.intercalate]

lemma fixLigatures_of_ascii (l : List Char)
    (h : ∀ c ∈ l, c.toNat < 128) : fixLigatures l = l := by
  induction l with
  | nil => rfl
  | cons c cs ih =>
    have hc := h c (List.mem_cons_self ..)
    have h1 : ¬ c = 'ﬁ' := fun hh => by
      rw [hh] at hc
      exact absurd hc (by decide)
    have h2 : ¬ c = 'ﬂ' := fun hh => by
      rw [hh] at hc
      exact absurd hc (by decide)
    simp only [fixLigatures]
    rw [if_neg h1, if_neg h2, ih fun x hx => h x (List.mem_cons_of_mem c hx)]

lemma isDialogueStart_false_of_no_marker (l : List Char)
    (hm : ∀ c ∈ l, isMarker c = false) : isDialogueStart l = false := by
  unfold isDialogueStart
  cases hd : l.dropWhile pyIsSpace with
  | nil => rfl
  | cons m rest =>
    show isMarker m = false
    apply hm
    exact (List.dropWhile_sublist pyIsSpace).mem
      (by rw [hd]; exact List.mem_cons_self ..)

lemma processLinePS_no_marker (x : List Char)
    (hmark : ∀ c ∈ x, isMarker c = false) :
    processLinePS x = x.takeWhile pyIsSpace ++
      collapseWS (if x.takeWhile pyIsSpace ≠ [] then x.dropWhile pyIsSpace
        else x) := by
  unfold processLinePS
  dsimp only
  have hmc : ∀ c ∈ (if x.takeWhile pyIsSpace ≠ [] then x.dropWhile pyIsSpace
      else x), isMarker c = false := by
    intro c hc
    apply hmark
    split at hc
    · exact (List.dropWhile_sublist pyIsSpace).mem hc
    · exact hc
  rw [isDialogueStart_false_of_no_marker _ hmc]
  simp

lemma dropWhile_append_all (p : Char → Bool) (A B : List Char)
    (h : ∀ a ∈ A, p a = true) : (A ++ B).dropWhile p = B.dropWhile p := by
  induction A with
  | nil => rfl
  | cons a A' ih =>
    rw [List.cons_append, List.dropWhile_cons,
      if_pos (h a (List.mem_cons_self ..)),
      ih fun x hx => h x (List.mem_cons_of_mem a hx)]

lemma mem_stripChars (l : List Char) (c : Char) (h : c ∈ stripChars l) :
    c ∈ l := by
  unfold stripChars at h
  rw [List.mem_reverse] at h
  have h2 := (List.dropWhile_sublist pyIsSpace).mem h
  rw [List.mem_reverse] at h2
  exact (List.dropWhile_sublist pyIsSpace).mem h2

/-- One application of `normalize_text` (styled) on single-line text
without dialogue markers reduces to: capture the indent, collapse the
whitespace of the content, re-apply the indent and strip. -/
lemma normalize_once (x : List Char) (hx : x ≠ [])
    (hmark : ∀ c ∈ x, isMarker c = false) (hnl : '\n' ∉ x)
    (hascii : ∀ c ∈ x, c.toNat < 128) :
    normalize_text nfcAscii true x =
      stripChars (x.takeWhile pyIsSpace ++
        collapseWS (if x.takeWhile pyIsSpace ≠ [] then x.dropWhile pyIsSpace
          else x)) := by
  unfold normalize_text
  rw [if_neg hx]
  show stripChars (collapseNL (hyph (sub3 (sub2 (sub1 (fixLigatures
    (List.intercalate ['\n']
      ((splitLines (nfcAscii x)).map processLinePS)))))))) = _
  rw [show nfcAscii x = x from rfl, splitLines_no_nl x hnl,
    List.map_cons, List.map_nil, intercalate_singleton,
    processLinePS_no_marker x hmark]
  have hmemz : ∀ c ∈ x.takeWhile pyIsSpace ++
      collapseWS (if x.takeWhile pyIsSpace ≠ [] then x.dropWhile pyIsSpace
        else x), c ∈ x ∨ c = ' ' := by
    intro c hc
    rcases List.mem_append.mp hc with h | h
    · exact Or.inl ((List.takeWhile_sublist pyIsSpace).mem h)
    · rcases collapseWSGo_mem _ false c h with h2 | h2
      · split at h2
        · exact Or.inl ((List.dropWhile_sublist pyIsSpace).mem h2)
        · exact Or.inl h2
      · exact Or.inr h2
  have hnlz : '\n' ∉ x.takeWhile pyIsSpace ++
      collapseWS (if x.takeWhile pyIsSpace ≠ [] then x.dropWhile pyIsSpace
        else x) := by
    intro hmem
    rcases hmemz '\n' hmem with h | h
    · exact hnl h
    · exact absurd h (by decide)
  have hligz : ∀ c ∈ x.takeWhile pyIsSpace ++
      collapseWS (if x.takeWhile pyIsSpace ≠ [] then x.dropWhile pyIsSpace
        else x), c.toNat < 128 := by
    intro c hc
    rcases hmemz c hc with h | h
    · exact hascii c h
    · rw [h]; decide
  rw [fixLigatures_of_ascii _ hligz,
    show ∀ l : List Char, sub1 l = sub1Go l.length l from fun _ => rfl,
    sub1Go_no_nl _ _ hnlz,
    show ∀ l : List Char, sub2 l = sub2Go l.length l from fun _ => rfl,
    sub2Go_no_nl _ _ hnlz,
    show ∀ l : List Char, sub3 l = l from fun _ => rfl,
    show ∀ l : List Char, hyph l = hyphGo l.length l from fun _ => rfl,
    hyphGo_no_nl _ _ hnlz,
    show ∀ l : List Char, collapseNL l = collapseNLGo l.length l from
      fun _ => rfl,
    collapseNLGo_no_nl _ _ hnlz]

/-- `normalize_text` (styled) fixes any text that is already in
normal form: no leading/trailing whitespace, all whitespace single
spaces, no newline, no dialogue marker, ASCII only. -/
lemma normalize_fix (y : List Char)
    (hlead : y.takeWhile pyIsSpace = [])
    (htrail : y.reverse.takeWhile pyIsSpace = [])
    (hch : List.Chain' nws y)
    (hall : ∀ c ∈ y, pyIsSpace c = true → c = ' ')
    (hmark : ∀ c ∈ y, isMarker c = false)
    (hnl : '\n' ∉ y)
    (hlig : ∀ c ∈ y, c.toNat < 128) :
    normalize_text nfcAscii true y = y := by
  by_cases hy : y = []
  · subst hy; rfl
  · rw [normalize_once y hy hmark hnl hlig, hlead,
      if_neg fun h => h rfl, List.nil_append,
      show collapseWS y = collapseWSGo false y from rfl,
      (collapseWSGo_fix y hch hall).1]
    exact stripChars_eq_self y hlead htrail

lemma mem_processed_line (x : List Char) (c : Char)
    (h : c ∈ x.takeWhile pyIsSpace ++
      collapseWS (if x.takeWhile pyIsSpace ≠ [] then x.dropWhile pyIsSpace
        else x)) : c ∈ x ∨ c = ' ' := by
  rcases List.mem_append.mp h with h | h
  · exact Or.inl ((List.takeWhile_sublist pyIsSpace).mem h)
  · rcases collapseWSGo_mem _ false c h with h2 | h2
    · split at h2
      · exact Or.inl ((List.dropWhile_sublist pyIsSpace).mem h2)
      · exact Or.inl h2
    · exact Or.inr h2

/-- C8 is false as stated: the three-line, dialogue-marker-free prose
`"a\nb\nc"` normalizes (styled) to `"a b\nc"`, whose normalization is
`"a b c"` — the scan of the broken-sentence join resumes after each
replaced match, so the second join only happens on the second pass. -/
theorem c8_idempotence_counterexample :
    normalize_text nfcAscii true ("a\nb\nc").toList = ("a b\nc").toList ∧
    normalize_text nfcAscii true
        (normalize_text nfcAscii true ("a\nb\nc").toList) =
      ("a b c").toList ∧
    normalize_text nfcAscii true
        (normalize_text nfcAscii true ("a\nb\nc").toList) ≠
      normalize_text nfcAscii true ("a\nb\nc").toList := by
  refine ⟨by decide, by decide, by decide⟩

/-- C8 (amended): styled normalization is idempotent on
dialogue-marker-free ASCII text containing no newline (single-line
prose); multi-line marker-free text may need several passes because
the line-join substitution resumes scanning after each match. -/
theorem c8_idempotent_on_single_line (x : List Char)
    (hascii : ∀ c ∈ x, c.toNat < 128)
    (hmark : ∀ c ∈ x, isMarker c = false)
    (hnl : '\n' ∉ x) :
    normalize_text nfcAscii true (normalize_text nfcAscii true x) =
      normalize_text nfcAscii true x := by
  by_cases hx : x = []
  · subst hx; rfl
  · rw [normalize_once x hx hmark hnl hascii]
    have hsz : stripChars (x.takeWhile pyIsSpace ++
        collapseWS (if x.takeWhile pyIsSpace ≠ [] then x.dropWhile pyIsSpace
          else x)) =
        (((collapseWS (if x.takeWhile pyIsSpace ≠ [] then
            x.dropWhile pyIsSpace else x)).dropWhile
              pyIsSpace).reverse.dropWhile pyIsSpace).reverse := by
      unfold stripChars
      rw [dropWhile_append_all pyIsSpace _ _
        fun a ha => List.mem_takeWhile_imp ha]
    apply normalize_fix
    · exact stripChars_no_lead _
    · exact stripChars_no_trail _
    · rw [hsz]
      apply chain'_nws_reverse
      obtain ⟨k2, hk2⟩ := dropWhile_drop_form pyIsSpace
        ((collapseWS (if x.takeWhile pyIsSpace ≠ [] then
          x.dropWhile pyIsSpace else x)).dropWhile pyIsSpace).reverse
      rw [hk2]
      apply chain'_drop _ _
      apply chain'_nws_reverse
      obtain ⟨k1, hk1⟩ := dropWhile_drop_form pyIsSpace
        (collapseWS (if x.takeWhile pyIsSpace ≠ [] then
          x.dropWhile pyIsSpace else x))
      rw [hk1]
      apply chain'_drop _ _
      exact (collapseWSGo_chain _).2.1
    · intro c hc hws
      rw [hsz] at hc
      rw [List.mem_reverse] at hc
      have h3 := (List.dropWhile_sublist pyIsSpace).mem hc
      rw [List.mem_reverse] at h3
      have h4 := (List.dropWhile_sublist pyIsSpace).mem h3
      exact collapseWSGo_allWsSpace _ false c h4 hws
    · intro c hc
      rcases mem_processed_line x c (mem_stripChars _ c hc) with h | h
      · exact hmark c h
      · rw [h]; rfl
    · intro hc
      rcases mem_processed_line x '\n' (mem_stripChars _ '\n' hc) with h | h
      · exact hnl h
      · exact absurd h (by decide)
    · intro c hc
      rcases mem_processed_line x c (mem_stripChars _ c hc) with h | h
      · exact hascii c h
      · rw [h]; decide

/-- C8 witness: a concrete single-line marker-free text satisfying the
hypotheses, on which normalization is idempotent. -/
theorem c8_idempotent_witness :
    (∀ c ∈ ("  a  b.").toList, c.toNat < 128) ∧
    (∀ c ∈ ("  a  b.").toList, isMarker c = false) ∧
    '\n' ∉ ("  a  b.").toList ∧
    normalize_text nfcAscii true
        (normalize_text nfcAscii true ("  a  b.").toList) =
      normalize_text nfcAscii true ("  a  b.").toList :=
  ⟨by decide, by decide, by decide,
    c8_idempotent_on_single_line ("  a  b.").toList (by decide) (by decide)
      (by decide)⟩

end BookConverter
